import Mathlib

/-!
Verification development for `copypg.py`, a developer-workflow utility that
seeds a local database copy from a production database.

The embedding models text as `List Char` (the field `String.data` of Lean
strings), so that every operation is structurally recursive and can be
evaluated by the kernel.  The two regular expressions used by
`process_schema` are modelled concretely:

* `re.findall("CREATE TABLE .*?;\n", text, re.DOTALL)` — a non-greedy scan:
  from the current position, find the next occurrence of the literal
  `CREATE TABLE `, then the first occurrence of `;\n` after it; the match is
  the enclosed substring (terminator included) and scanning resumes after it.

* `re.sub("bigint DEFAULT nextval.*,", "serial,", t, re.MULTILINE)` — note
  that in Python's `re.sub(pattern, repl, string, count=0, flags=0)` the
  fourth positional argument is `count`, so `re.MULTILINE` (numeric value 8)
  acts as `count=8` and no flags are set.  Hence `.` does not match a
  newline and `.*` is greedy: a match is the literal
  `bigint DEFAULT nextval` followed by everything up to the LAST comma that
  occurs before the next newline; at most 8 replacements are performed.
-/

set_option maxRecDepth 20000

abbrev Str : Type := List Char

/-- The literal prefix of the table-extraction pattern `CREATE TABLE .*?;\n`. -/
def createPat : Str := ("CREATE TABLE ").data

/-- The statement terminator `;\n` required by the extraction pattern. -/
def termPat : Str := (";\x0a").data

/-- The literal prefix of the substitution pattern `bigint DEFAULT nextval.*,`. -/
def nextvalPat : Str := ("bigint DEFAULT nextval").data

/-- The replacement text `serial,`. -/
def serialRepl : Str := ("serial,").data

/-- Split a list at the first occurrence of `pat`: returns the part before the
occurrence and the part after it (the occurrence itself removed), or `none`
when `pat` does not occur. -/
def splitFirst (pat : Str) : Str → Option (Str × Str)
  | [] => if pat.isEmpty then some ([], []) else none
  | c :: cs =>
    if pat.isPrefixOf (c :: cs) then some ([], (c :: cs).drop pat.length)
    else (splitFirst pat cs).map (fun p => (c :: p.1, p.2))

/-- `pat` occurs as a contiguous substring. -/
def occursIn (pat : Str) : Str → Bool
  | [] => pat.isEmpty
  | c :: cs => pat.isPrefixOf (c :: cs) || occursIn pat cs

/-- Index of the last `,` in a list, if any. -/
def lastCommaIdx : Str → Option Nat
  | [] => none
  | c :: cs =>
    match lastCommaIdx cs with
    | some j => some (j + 1)
    | none => if c = ',' then some 0 else none

/-- `true` when the text is empty or its final character is a newline. -/
def endsNl (s : Str) : Bool :=
  match s.getLast? with
  | some c => c == '\x0a'
  | none => true

/-- Fuel-indexed worker for the `re.findall("CREATE TABLE .*?;\n", ·, re.DOTALL)`
scan of `process_schema`.  The fuel only serves to make the recursion
structural; `findTableStmts` supplies enough of it. -/
def findAux : Nat → Str → List Str
  | 0, _ => []
  | fuel + 1, s =>
    match splitFirst createPat s with
    | none => []
    | some (_, r1) =>
      match splitFirst termPat r1 with
      | none => []
      | some (b, r2) => (createPat ++ b ++ termPat) :: findAux fuel r2

/-- The extraction step of `process_schema`:
`re.findall("CREATE TABLE .*?;\n", text, re.DOTALL)`. -/
def findTableStmts (s : Str) : List Str := findAux s.length s

/-- Fuel-indexed worker for
`re.sub("bigint DEFAULT nextval.*,", "serial,", t, count)`.  At each position:
if the literal `bigint DEFAULT nextval` matches and a comma occurs before the
next newline, the greedy `.*,` consumes through the last such comma and the
match is replaced by `serial,`; otherwise the character is copied.  `count`
counts the replacements still allowed (the source always starts it at 8,
because `re.MULTILINE = 8` is passed in the count position). -/
def subAux : Nat → Nat → Str → Str
  | 0, _, s => s
  | _ + 1, _, [] => []
  | fuel + 1, count, c :: cs =>
    if count = 0 then c :: cs
    else
      if nextvalPat.isPrefixOf (c :: cs) then
        match lastCommaIdx (((c :: cs).drop nextvalPat.length).takeWhile (fun x => x != '\x0a')) with
        | some j =>
          serialRepl ++ subAux fuel (count - 1) (((c :: cs).drop nextvalPat.length).drop (j + 1))
        | none => c :: subAux fuel count cs
      else c :: subAux fuel count cs

/-- `re.sub("bigint DEFAULT nextval.*,", "serial,", s, count)`. -/
def pyResub (count : Nat) (s : Str) : Str := subAux s.length count s

/-- The rewriting step applied by `process_schema` to each extracted
statement (`count = re.MULTILINE = 8`). -/
def reSubNextval (s : Str) : Str := pyResub 8 s

/-- `true` when the substitution pattern `bigint DEFAULT nextval.*,` matches
somewhere in `s` (the literal prefix occurs and a comma follows it before the
next newline). -/
def hasSubMatch : Str → Bool
  | [] => false
  | c :: cs =>
    (nextvalPat.isPrefixOf (c :: cs)
      && (lastCommaIdx (((c :: cs).drop nextvalPat.length).takeWhile (fun x => x != '\x0a'))).isSome)
    || hasSubMatch cs

/-- Python's `sep.join(xs)` on character lists. -/
def pyJoin (sep : Str) : List Str → Str
  | [] => []
  | x :: rest => rest.foldl (fun acc y => acc ++ sep ++ y) x

/-- The tail of a separator join:
`joinTail sep [y₁, y₂, …] = sep ++ y₁ ++ sep ++ y₂ ++ …`. -/
def joinTail (sep : Str) : List Str → Str
  | [] => []
  | y :: t => sep ++ y ++ joinTail sep t

/-- The statements produced by the extraction and rewriting steps of
`process_schema` (before the alterations are appended). -/
def processedStmts (text : Str) : List Str :=
  (findTableStmts text).map reSubNextval

/-- `process_schema`, as a text transformation: the raw schema text in,
the processed schema text (the content written to
`processed/prod.schema.sql`) out.  `alterations` is the externally supplied
configuration list. -/
def process_schema (text : Str) (alterations : List Str) : Str :=
  pyJoin (['\x0a']) (processedStmts text ++ alterations)

/-! ### Well-formed raw schema texts

A raw schema text is modelled as a concatenation of segments: table-definition
statements (`CREATE TABLE ` ++ body ++ `;\n`) and other statements.  `segOk`
captures the well-formedness side conditions under which the extraction step
behaves as the specification describes: a table body contains no embedded
statement terminator, and a non-table segment contains no occurrence of the
table-definition keyword and ends with a newline (raw SQL statements do). -/

inductive RawSeg where
  | table : Str → RawSeg
  | other : Str → RawSeg

/-- The text of a segment. -/
def segText : RawSeg → Str
  | .table b => createPat ++ b ++ termPat
  | .other s => s

/-- A raw schema text, as the concatenation of its segments. -/
def rawText (segs : List RawSeg) : Str := (segs.map segText).flatten

/-- Well-formedness of one segment (see section comment). -/
def segOk : RawSeg → Bool
  | .table b => !occursIn termPat b
  | .other s => !occursIn createPat s && endsNl s

/-- The table statements among the segments, in order. -/
def tableOf : RawSeg → Option Str
  | .table b => some (createPat ++ b ++ termPat)
  | .other _ => none

/-! ### Command construction

The remaining steps build `psql`/`pg_dump` command lines and hand them to a
runner.  `run_silently` models `run(cmd, shell=True, stdout=PIPE, stderr=PIPE)`
(output suppressed, exit status ignored); `run_visible` models the bare
`run(cmd, shell=True)` used by `load_data_for_large_tables` (output inherited).
Neither raises, so in both cases the pipeline proceeds to the next step. -/

inductive Runner where
  | silent : Runner
  | visible : Runner
deriving DecidableEq

/-- `run_silently(cmd)`: the invocation record of the silent runner. -/
def run_silently (cmd : Str) : Str × Runner := (cmd, Runner.silent)

/-- `run(cmd, shell=True)`: the invocation record of the output-inheriting
runner. -/
def run_visible (cmd : Str) : Str × Runner := (cmd, Runner.visible)

/-- Python's `repr` of a string (as interpolated into an f-string inside a
tuple).  The configuration values are plain identifiers, so the
single-quoted form without escapes is faithful. -/
def pyStrRepr (s : Str) : Str := '\x27' :: (s ++ ['\x27'])

/-- Python's `str` of a tuple of strings: length one renders with a trailing
comma (`('x',)`); every other length joins the element reprs with `, `. -/
def pyTupleRepr (xs : List Str) : Str :=
  match xs with
  | [x] => '(' :: (pyStrRepr x ++ (",)").data)
  | _ => '(' :: (pyJoin ((", ").data) (xs.map pyStrRepr) ++ [')'])

/-- The tuple `('-hack-',) + shop_ids` interpolated into both sampled-table
download commands: the sentinel is prepended unconditionally. -/
def paddedShopIds (shopIds : List Str) : List Str := ("-hack-").data :: shopIds

/-- The membership test `shop_id in ('-hack-',) + shop_ids` performed by the
generated predicate. -/
def shop_filter (shopIds : List Str) (shopId : Str) : Bool :=
  decide (shopId ∈ paddedShopIds shopIds)

/-- The intermediate file path `raw/{table}_{sample}.csv` shared by the two
large-table download commands and the large-table load command. -/
def filePathLarge (table sample : Str) : Str :=
  ("raw/").data ++ table ++ ("_").data ++ sample ++ (".csv").data

/-- The command template of `download_sample_of_data_for_large_tables`, after
`.format(table=..., sample=...)` (the sampling fraction is passed in its
string rendering). -/
def cmdSampleLarge (prodDb table sample : Str) (shopIds : List Str) : Str :=
  ("\x0a    psql ").data ++ prodDb
    ++ (" -c \"\\copy (\x0a        select * from ").data ++ table
    ++ (" \x0a        tablesample system (").data ++ sample
    ++ (")\x0a        where shop_id in ").data ++ pyTupleRepr (paddedShopIds shopIds)
    ++ ("\x0a        )\x0a        to \x27").data ++ filePathLarge table sample
    ++ ("\x27 with header csv\"\x0a    ").data

/-- The command template of `download_shop_specific_data_for_large_tables`
(identical to the sampling command except that no `tablesample` clause is
applied; the file name still mentions the sampling fraction). -/
def cmdShopSpecific (prodDb table sample : Str) (shopIds : List Str) : Str :=
  ("\x0a    psql ").data ++ prodDb
    ++ (" -c \"\\copy (\x0a        select * from ").data ++ table
    ++ (" \x0a        where shop_id in ").data ++ pyTupleRepr (paddedShopIds shopIds)
    ++ ("\x0a        )\x0a        to \x27").data ++ filePathLarge table sample
    ++ ("\x27 with header csv\"\x0a    ").data

/-- The command template of `load_data_for_large_tables`, after `.format`. -/
def cmdLoadLarge (localDb table sample : Str) : Str :=
  ("\x0a    psql ").data ++ localDb ++ (" -c \"\\copy ").data ++ table
    ++ (" from \x27").data ++ filePathLarge table sample
    ++ ("\x27 with csv header\"\x0a    ").data

/-- `load_data_for_small_tables`: one silent invocation. -/
def load_data_for_small_tables (localDb : Str) : List (Str × Runner) :=
  [run_silently (("psql ").data ++ localDb ++ (" -f raw/prod.data.sql").data)]

/-- `load_data_for_large_tables`: one output-inheriting invocation per
configured large table (`large_tables` is modelled as the list of its
`(table, sample)` items). -/
def load_data_for_large_tables (localDb : Str) (largeTables : List (Str × Str)) :
    List (Str × Runner) :=
  largeTables.map (fun p => run_visible (cmdLoadLarge localDb p.1 p.2))

/-- `download_sample_of_data_for_large_tables`: one silent invocation per
configured large table. -/
def download_sample_of_data_for_large_tables (prodDb : Str)
    (largeTables : List (Str × Str)) (shopIds : List Str) : List (Str × Runner) :=
  largeTables.map (fun p => run_silently (cmdSampleLarge prodDb p.1 p.2 shopIds))

/-- `download_shop_specific_data_for_large_tables`: one silent invocation per
configured large table. -/
def download_shop_specific_data_for_large_tables (prodDb : Str)
    (largeTables : List (Str × Str)) (shopIds : List Str) : List (Str × Runner) :=
  largeTables.map (fun p => run_silently (cmdShopSpecific prodDb p.1 p.2 shopIds))

/-! ### The reload step sequence

`reload` iterates over `dedent("""…""").split()` and calls each named
function via `globals()[step]()`, printing a marker before and after; there
is no branching, so the steps run once each, in list order, unconditionally.
`textwrap.dedent` only strips the common leading whitespace of the lines,
which `str.split()` (split on whitespace runs, dropping empty fields)
ignores, so `pySplit` is applied directly to the source literal. -/

/-- Worker for `str.split()` (split on whitespace, discarding empties). -/
def splitWsAux : Str → Str → List Str
  | [], acc => if acc.isEmpty then [] else [acc.reverse]
  | c :: cs, acc =>
    if c.isWhitespace then
      if acc.isEmpty then splitWsAux cs [] else acc.reverse :: splitWsAux cs []
    else splitWsAux cs (c :: acc)

/-- Python's `str.split()` with no arguments. -/
def pySplit (s : Str) : List Str := splitWsAux s []

/-- The literal multi-line string listing the steps of `reload`, exactly as
written in the source. -/
def reloadStepsText : Str :=
  ("\x0a    download_schema\x0a    process_schema\x0a    drop_tables\x0a    create_tables\x0a    download_data_for_small_tables\x0a    download_sample_of_data_for_large_tables\x0a    load_data_for_small_tables\x0a    load_data_for_large_tables\x0a    ").data

/-- The literal multi-line string listing the steps of `reload_for_shops`,
exactly as written in the source. -/
def reloadForShopsStepsText : Str :=
  ("\x0a    truncate_large_tables\x0a    download_shop_specific_data_for_large_tables\x0a    load_data_for_large_tables\x0a    ").data

/-- The step functions defined by the module that the two flows name. -/
inductive PipelineStep where
  | download_schema : PipelineStep
  | process_schema : PipelineStep
  | drop_tables : PipelineStep
  | create_tables : PipelineStep
  | download_data_for_small_tables : PipelineStep
  | download_sample_of_data_for_large_tables : PipelineStep
  | load_data_for_small_tables : PipelineStep
  | load_data_for_large_tables : PipelineStep
  | truncate_large_tables : PipelineStep
  | download_shop_specific_data_for_large_tables : PipelineStep
  | reset_db : PipelineStep
deriving DecidableEq

/-- The `globals()[step]` lookup restricted to the module's step functions. -/
def stepOf (s : Str) : Option PipelineStep :=
  if s = ("download_schema").data then some .download_schema
  else if s = ("process_schema").data then some .process_schema
  else if s = ("drop_tables").data then some .drop_tables
  else if s = ("create_tables").data then some .create_tables
  else if s = ("download_data_for_small_tables").data then some .download_data_for_small_tables
  else if s = ("download_sample_of_data_for_large_tables").data then some .download_sample_of_data_for_large_tables
  else if s = ("load_data_for_small_tables").data then some .load_data_for_small_tables
  else if s = ("load_data_for_large_tables").data then some .load_data_for_large_tables
  else if s = ("truncate_large_tables").data then some .truncate_large_tables
  else if s = ("download_shop_specific_data_for_large_tables").data then some .download_shop_specific_data_for_large_tables
  else if s = ("reset_db").data then some .reset_db
  else none

/-! ### Database-state semantics of the partition refresh flow

Modelled from the spec: the source only shells out to `psql`, so the effect
of the three commands used by the partition refresh flow on the local
database and the working directory is taken from the specification's
description — `truncate {table}` empties the local table, `\copy (select …)
to 'file'` overwrites the file with the selected production rows, and
`\copy {table} from 'file'` appends the file's rows to the local table. -/

/-- A row, reduced to the parts the flow inspects: its partition key and an
opaque remainder. -/
structure PGRow where
  shopId : Str
  payload : Str

/-- The visible state: local tables, the `raw/` working files (keyed by file
path), and the read-only production tables. -/
@[ext]
structure PGState where
  localRows : Str → List PGRow
  fileRows : Str → Option (List PGRow)
  prodRows : Str → List PGRow

/-- Modelled from the spec: `truncate_large_tables` — one
`psql local_prod -c 'truncate {table}'` per configured large table; each
empties that local table. -/
def truncate_large_tables_effect (largeTables : List (Str × Str)) (s : PGState) : PGState :=
  largeTables.foldl
    (fun st p => { st with localRows := Function.update st.localRows p.1 [] }) s

/-- Modelled from the spec: `download_shop_specific_data_for_large_tables` —
each command overwrites `raw/{table}_{sample}.csv` with the production rows
whose partition key passes the generated `shop_id in …` predicate (no
sampling clause). -/
def download_shop_specific_data_effect (largeTables : List (Str × Str))
    (shopIds : List Str) (s : PGState) : PGState :=
  largeTables.foldl
    (fun st p =>
      { st with
        fileRows := Function.update st.fileRows (filePathLarge p.1 p.2)
          (some ((st.prodRows p.1).filter (fun r => shop_filter shopIds r.shopId))) }) s

/-- Modelled from the spec: `load_data_for_large_tables` — each command
appends the rows of `raw/{table}_{sample}.csv` to the local table (no rows
when the file is absent, since the failed `\copy` loads nothing). -/
def load_data_for_large_tables_effect (largeTables : List (Str × Str)) (s : PGState) : PGState :=
  largeTables.foldl
    (fun st p =>
      { st with
        localRows := Function.update st.localRows p.1
          (st.localRows p.1 ++ ((st.fileRows (filePathLarge p.1 p.2)).getD [])) }) s

/-- The `reload_for_shops` flow: truncate, then download per partition key,
then load, in the order of the source's step list. -/
def reload_for_shops_effect (largeTables : List (Str × Str)) (shopIds : List Str)
    (s : PGState) : PGState :=
  load_data_for_large_tables_effect largeTables
    (download_shop_specific_data_effect largeTables shopIds
      (truncate_large_tables_effect largeTables s))

/-- Overwrite map entries with a sequence of keyed writes, in order. -/
def applyWrites {β : Type} (m : Str → β) (ws : List (Str × β)) : Str → β :=
  ws.foldl (fun acc p => Function.update acc p.1 p.2) m

/-- The last value written to a key by a sequence of writes, if any. -/
def lastWrite {β : Type} : List (Str × β) → Str → Option β
  | [], _ => none
  | (k, v) :: ws, key =>
    match lastWrite ws key with
    | some w => some w
    | none => if k = key then some v else none

/-- The file writes performed by the partition-scoped download, as data. -/
def downloadWrites (largeTables : List (Str × Str)) (shopIds : List Str)
    (prod : Str → List PGRow) : List (Str × Option (List PGRow)) :=
  largeTables.map
    (fun p => (filePathLarge p.1 p.2,
      some ((prod p.1).filter (fun r => shop_filter shopIds r.shopId))))

/-! ### Basic lemmas about the scanning primitives -/

theorem isPrefixOf_exists {l₁ l₂ : Str} (h : l₁.isPrefixOf l₂ = true) :
    ∃ t, l₁ ++ t = l₂ := by
  induction l₁ generalizing l₂ with
  | nil => exact ⟨l₂, rfl⟩
  | cons a as ih =>
    cases l₂ with
    | nil => simp at h
    | cons b bs =>
      simp only [List.isPrefixOf_cons₂, Bool.and_eq_true_iff, beq_iff_eq] at h
      obtain ⟨hab, hrec⟩ := h
      obtain ⟨t, ht⟩ := ih hrec
      exact ⟨t, by rw [List.cons_append, ht, hab]⟩

theorem isPrefixOf_of_append (l t : Str) : l.isPrefixOf (l ++ t) = true := by
  induction l with
  | nil => simp
  | cons a as ih => rw [List.cons_append, List.isPrefixOf_cons₂]; simp [ih]

theorem length_le_of_isPrefixOf {l₁ l₂ : Str} (h : l₁.isPrefixOf l₂ = true) :
    l₁.length ≤ l₂.length := by
  obtain ⟨t, ht⟩ := isPrefixOf_exists h
  subst ht; simp

theorem splitFirst_length {pat : Str} : ∀ {s b a : Str},
    splitFirst pat s = some (b, a) → b.length + pat.length + a.length = s.length := by
  intro s
  induction s with
  | nil =>
    intro b a h
    simp only [splitFirst] at h
    by_cases hp : pat.isEmpty = true
    · rw [if_pos hp] at h
      have hp' : pat = [] := by
        cases pat with
        | nil => rfl
        | cons x xs => simp at hp
      simp at h
      obtain ⟨rfl, rfl⟩ := h
      simp [hp']
    · rw [if_neg hp] at h
      simp at h
  | cons c cs ih =>
    intro b a h
    simp only [splitFirst] at h
    by_cases hp : pat.isPrefixOf (c :: cs) = true
    · rw [if_pos hp] at h
      have hle := length_le_of_isPrefixOf hp
      simp at h
      obtain ⟨rfl, rfl⟩ := h
      simp only [List.length_nil, List.length_drop, List.length_cons] at *
      omega
    · rw [if_neg hp] at h
      rcases ho : splitFirst pat cs with _ | ⟨b', a'⟩
      · rw [ho] at h; simp at h
      · rw [ho] at h
        simp at h
        obtain ⟨rfl, rfl⟩ := h
        have := ih ho
        simp only [List.length_cons] at *
        omega

theorem splitFirst_none_nil {pat : Str} (h : pat.isEmpty = false) :
    splitFirst pat [] = none := by
  simp [splitFirst, h]

theorem splitFirst_pos {pat s : Str} (hne : pat.isEmpty = false)
    (h : pat.isPrefixOf s = true) :
    splitFirst pat s = some ([], s.drop pat.length) := by
  cases s with
  | nil =>
    exfalso
    cases pat with
    | nil => simp at hne
    | cons p ps => simp at h
  | cons c cs => simp [splitFirst, h]

theorem splitFirst_neg {pat : Str} {c : Char} {cs : Str}
    (h : pat.isPrefixOf (c :: cs) = false) :
    splitFirst pat (c :: cs) = (splitFirst pat cs).map (fun p => (c :: p.1, p.2)) := by
  simp [splitFirst, h]

/-! ### Unfolding equations for the fuel-indexed scanners -/

theorem findAux_fuel : ∀ (f₁ : Nat) {f₂ : Nat} {s : Str},
    s.length ≤ f₁ → s.length ≤ f₂ → findAux f₁ s = findAux f₂ s := by
  intro f₁
  induction f₁ with
  | zero =>
    intro f₂ s h1 _
    have hs : s = [] := List.length_eq_zero.mp (Nat.le_zero.mp h1)
    subst hs
    cases f₂ with
    | zero => rfl
    | succ f => simp [findAux, splitFirst_none_nil (by decide : createPat.isEmpty = false)]
  | succ f₁ ih =>
    intro f₂ s h1 h2
    cases f₂ with
    | zero =>
      have hs : s = [] := List.length_eq_zero.mp (Nat.le_zero.mp h2)
      subst hs
      simp [findAux, splitFirst_none_nil (by decide : createPat.isEmpty = false)]
    | succ f₂ =>
      simp only [findAux]
      cases h3 : splitFirst createPat s with
      | none => rfl
      | some p1 =>
        obtain ⟨p, r1⟩ := p1
        cases h4 : splitFirst termPat r1 with
        | none => simp [h4]
        | some p2 =>
          obtain ⟨b, r2⟩ := p2
          have e1 := splitFirst_length h3
          have e2 := splitFirst_length h4
          have hc : 1 ≤ createPat.length := by decide
          have ht : 1 ≤ termPat.length := by decide
          simp only [h4]
          exact congrArg (fun z => (createPat ++ b ++ termPat) :: z)
            (@ih f₂ r2 (by omega) (by omega))

theorem findTableStmts_eq (s : Str) :
    findTableStmts s =
      match splitFirst createPat s with
      | none => []
      | some (_, r1) =>
        match splitFirst termPat r1 with
        | none => []
        | some (b, r2) => (createPat ++ b ++ termPat) :: findTableStmts r2 := by
  cases s with
  | nil => rfl
  | cons c cs =>
    show findAux (cs.length + 1) (c :: cs) = _
    simp only [findAux]
    cases h3 : splitFirst createPat (c :: cs) with
    | none => rfl
    | some p1 =>
      obtain ⟨p, r1⟩ := p1
      cases h4 : splitFirst termPat r1 with
      | none => simp [h4]
      | some p2 =>
        obtain ⟨b, r2⟩ := p2
        have e1 := splitFirst_length h3
        have e2 := splitFirst_length h4
        have hc : 1 ≤ createPat.length := by decide
        have ht : 1 ≤ termPat.length := by decide
        simp only [List.length_cons] at e1
        simp only [h4]
        exact congrArg (fun z => (createPat ++ b ++ termPat) :: z)
          (@findAux_fuel cs.length r2.length r2 (by omega) (Nat.le_refl _))

theorem subAux_fuel : ∀ (f₁ : Nat) {f₂ count : Nat} {s : Str},
    s.length ≤ f₁ → s.length ≤ f₂ → subAux f₁ count s = subAux f₂ count s := by
  intro f₁
  induction f₁ with
  | zero =>
    intro f₂ count s h1 _
    have hs : s = [] := List.length_eq_zero.mp (Nat.le_zero.mp h1)
    subst hs
    cases f₂ with
    | zero => rfl
    | succ f => rfl
  | succ f₁ ih =>
    intro f₂ count s h1 h2
    cases s with
    | nil =>
      cases f₂ with
      | zero => rfl
      | succ f => rfl
    | cons c cs =>
      cases f₂ with
      | zero => simp at h2
      | succ f₂ =>
        simp only [List.length_cons] at h1 h2
        by_cases hc : count = 0
        · simp [subAux, hc]
        · by_cases hp : nextvalPat.isPrefixOf (c :: cs) = true
          · cases hm : lastCommaIdx (((c :: cs).drop nextvalPat.length).takeWhile
                (fun x => x != '\x0a')) with
            | some j =>
              have hnp : 1 ≤ nextvalPat.length := by decide
              have hlen : (((c :: cs).drop nextvalPat.length).drop (j + 1)).length ≤ cs.length := by
                simp only [List.length_drop, List.length_cons]; omega
              simp only [subAux]
              rw [if_neg hc, if_neg hc, if_pos hp, if_pos hp, hm]
              exact congrArg (fun z => serialRepl ++ z)
                (@ih f₂ (count - 1) (((c :: cs).drop nextvalPat.length).drop (j + 1))
                  (by omega) (by omega))
            | none =>
              simp only [subAux]
              rw [if_neg hc, if_neg hc, if_pos hp, if_pos hp, hm]
              exact congrArg (fun z => c :: z) (@ih f₂ count cs (by omega) (by omega))
          · have hp' : nextvalPat.isPrefixOf (c :: cs) = false := by
              cases hb : nextvalPat.isPrefixOf (c :: cs) with
              | false => rfl
              | true => exact absurd hb hp
            simp only [subAux]
            rw [if_neg hc, if_neg hc, if_neg (by simp [hp']), if_neg (by simp [hp'])]
            exact congrArg (fun z => c :: z) (@ih f₂ count cs (by omega) (by omega))

theorem pyResub_zero (s : Str) : pyResub 0 s = s := by
  cases s with
  | nil => rfl
  | cons c cs => rfl

theorem pyResub_cons_neg {c : Char} {cs : Str} (count : Nat)
    (h : nextvalPat.isPrefixOf (c :: cs) = false) :
    pyResub count (c :: cs) = c :: pyResub count cs := by
  by_cases hc : count = 0
  · subst hc; rw [pyResub_zero, pyResub_zero]
  · show subAux (cs.length + 1) count (c :: cs) = _
    simp only [subAux]
    rw [if_neg hc, if_neg (by simp [h])]
    rfl

theorem pyResub_cons_match {c : Char} {cs : Str} {j count : Nat}
    (h : nextvalPat.isPrefixOf (c :: cs) = true)
    (hj : lastCommaIdx (((c :: cs).drop nextvalPat.length).takeWhile
      (fun x => x != '\x0a')) = some j)
    (hc : count ≠ 0) :
    pyResub count (c :: cs)
      = serialRepl ++ pyResub (count - 1) (((c :: cs).drop nextvalPat.length).drop (j + 1)) := by
  show subAux (cs.length + 1) count (c :: cs) = _
  simp only [subAux]
  rw [if_neg hc, if_pos h, hj]
  have hnp : 1 ≤ nextvalPat.length := by decide
  have hlen : (((c :: cs).drop nextvalPat.length).drop (j + 1)).length ≤ cs.length := by
    simp only [List.length_drop, List.length_cons]; omega
  exact congrArg (fun z => serialRepl ++ z)
    (@subAux_fuel cs.length (((c :: cs).drop nextvalPat.length).drop (j + 1)).length
      (count - 1) (((c :: cs).drop nextvalPat.length).drop (j + 1)) (by omega) (Nat.le_refl _))

theorem pyResub_cons_nomatch {c : Char} {cs : Str} (count : Nat)
    (h : nextvalPat.isPrefixOf (c :: cs) = true)
    (hj : lastCommaIdx (((c :: cs).drop nextvalPat.length).takeWhile
      (fun x => x != '\x0a')) = none) :
    pyResub count (c :: cs) = c :: pyResub count cs := by
  by_cases hc : count = 0
  · subst hc; rw [pyResub_zero, pyResub_zero]
  · show subAux (cs.length + 1) count (c :: cs) = _
    simp only [subAux]
    rw [if_neg hc, if_pos h, hj]
    rfl

/-! ### Behaviour of the substitution scan -/

theorem pyResub_no_match : ∀ {s : Str} (count : Nat), hasSubMatch s = false →
    pyResub count s = s := by
  intro s
  induction s with
  | nil => intro count _; rfl
  | cons c cs ih =>
    intro count h
    simp only [hasSubMatch, Bool.or_eq_false_iff, Bool.and_eq_false_iff] at h
    by_cases hp : nextvalPat.isPrefixOf (c :: cs) = true
    · have hnone : lastCommaIdx (((c :: cs).drop nextvalPat.length).takeWhile
          (fun x => x != '\x0a')) = none := by
        rcases h.1 with hf | hs
        · rw [hp] at hf; simp at hf
        · cases ho : lastCommaIdx (((c :: cs).drop nextvalPat.length).takeWhile
              (fun x => x != '\x0a')) with
          | none => rfl
          | some j => rw [ho] at hs; simp at hs
      rw [pyResub_cons_nomatch count hp hnone, ih count h.2]
    · have hp' : nextvalPat.isPrefixOf (c :: cs) = false := by
        cases hb : nextvalPat.isPrefixOf (c :: cs) with
        | false => rfl
        | true => exact absurd hb hp
      rw [pyResub_cons_neg count hp', ih count h.2]

theorem pyResub_scan_pre : ∀ (pre : Str) {rest : Str} (count : Nat),
    (∀ i, i < pre.length → nextvalPat.isPrefixOf (List.drop i (pre ++ rest)) = false) →
    pyResub count (pre ++ rest) = pre ++ pyResub count rest := by
  intro pre
  induction pre with
  | nil => intro rest count _; rfl
  | cons c pre' ih =>
    intro rest count h
    have h0 : nextvalPat.isPrefixOf (c :: (pre' ++ rest)) = false := by
      have := h 0 (by simp)
      simpa using this
    rw [List.cons_append, pyResub_cons_neg count h0]
    rw [ih count (fun i hi => by
      have := h (i + 1) (by simp; omega)
      simpa using this)]
    rfl

theorem lastCommaIdx_none_of_all {l : Str} (h : l.all (fun c => c != ',') = true) :
    lastCommaIdx l = none := by
  induction l with
  | nil => rfl
  | cons c cs ih =>
    simp only [List.all_cons, Bool.and_eq_true_iff] at h
    rw [lastCommaIdx, ih h.2]
    have hc : ¬c = ',' := by
      intro hh
      subst hh
      simp at h
    simp [hc]

theorem lastCommaIdx_append_comma : ∀ (a : Str) {b : Str}, lastCommaIdx b = none →
    lastCommaIdx (a ++ ',' :: b) = some a.length := by
  intro a
  induction a with
  | nil =>
    intro b hb
    rw [List.nil_append, lastCommaIdx, hb]
    simp
  | cons c a' ih =>
    intro b hb
    rw [List.cons_append, lastCommaIdx, ih hb]
    simp

theorem pyResub_match_form {s : Str} {j count : Nat} (hne : s ≠ [])
    (h : nextvalPat.isPrefixOf s = true)
    (hj : lastCommaIdx ((s.drop nextvalPat.length).takeWhile (fun x => x != '\x0a')) = some j)
    (hc : count ≠ 0) :
    pyResub count s = serialRepl ++ pyResub (count - 1) ((s.drop nextvalPat.length).drop (j + 1)) := by
  cases s with
  | nil => exact absurd rfl hne
  | cons c cs => exact pyResub_cons_match h hj hc

theorem pyResub_at_match {mid post : Str} {count : Nat}
    (hmid : mid.all (fun c => c != '\x0a') = true)
    (hline : (post.takeWhile (fun c => c != '\x0a')).all (fun c => c != ',') = true)
    (hc : count ≠ 0) :
    pyResub count (nextvalPat ++ (mid ++ ',' :: post))
      = serialRepl ++ pyResub (count - 1) post := by
  have hne : nextvalPat ++ (mid ++ ',' :: post) ≠ [] := by
    intro hh
    have := (List.append_eq_nil.mp hh).1
    exact absurd this (by decide)
  have hdrop : (nextvalPat ++ (mid ++ ',' :: post)).drop nextvalPat.length
      = mid ++ ',' :: post := List.drop_left _ _
  have hregion : ((mid ++ ',' :: post).takeWhile (fun x => x != '\x0a'))
      = mid ++ ',' :: post.takeWhile (fun x => x != '\x0a') := by
    rw [List.takeWhile_append_of_pos (by
      intro a ha
      exact List.all_eq_true.mp hmid a ha)]
    rw [List.takeWhile_cons, if_pos (by decide)]
  have hj : lastCommaIdx ((( nextvalPat ++ (mid ++ ',' :: post)).drop
      nextvalPat.length).takeWhile (fun x => x != '\x0a')) = some mid.length := by
    rw [hdrop, hregion]
    exact lastCommaIdx_append_comma mid (lastCommaIdx_none_of_all hline)
  rw [pyResub_match_form hne (isPrefixOf_of_append _ _) hj hc, hdrop]
  have hpost : (mid ++ ',' :: post).drop (mid.length + 1) = post := by
    have : mid ++ ',' :: post = (mid ++ [',']) ++ post := by
      simp [List.append_assoc]
    rw [this, List.drop_left' (by simp)]
  rw [hpost]

/-! ### Behaviour of the extraction scan on well-formed schema texts -/

theorem endsNl_cons_cons (a b : Char) (l : Str) : endsNl (a :: b :: l) = endsNl (b :: l) := by
  simp only [endsNl, List.getLast?_cons_cons]

theorem createPat_no_straddle {c : Char} {s' rest : Str}
    (hocc : occursIn createPat (c :: s') = false) (hend : endsNl (c :: s') = true) :
    createPat.isPrefixOf (c :: s' ++ rest) = false := by
  cases hb : createPat.isPrefixOf (c :: s' ++ rest) with
  | false => rfl
  | true =>
    exfalso
    obtain ⟨t, ht⟩ := isPrefixOf_exists hb
    have ht' : (c :: s') ++ rest = createPat ++ t := by
      rw [List.cons_append]; exact ht.symm
    by_cases hlen : createPat.length ≤ (c :: s').length
    · have e2 : ((c :: s') ++ rest).take createPat.length = createPat := by
        rw [ht', List.take_left]
      have e3 : (c :: s').take createPat.length = createPat := by
        rw [← List.take_append_of_le_length hlen, e2]
      have e4 : createPat ++ (c :: s').drop createPat.length = c :: s' := by
        conv_rhs => rw [← List.take_append_drop createPat.length (c :: s')]
        rw [e3]
      have hpref : createPat.isPrefixOf (c :: s') = true := by
        rw [← e4]; exact isPrefixOf_of_append _ _
      simp only [occursIn, Bool.or_eq_false_iff] at hocc
      rw [hocc.1] at hpref
      simp at hpref
    · have hg : (c :: s').getLast? = some '\x0a' := by
        cases hgl : (c :: s').getLast? with
        | none => simp at hgl
        | some x =>
          simp only [endsNl, hgl, beq_iff_eq] at hend
          rw [hend]
      have hmem : '\x0a' ∈ (c :: s') := List.mem_of_getLast?_eq_some hg
      have e1 : ((c :: s') ++ rest).take (c :: s').length = c :: s' := List.take_left _ _
      have e2' : ((c :: s') ++ rest).take (c :: s').length
          = createPat.take (c :: s').length := by
        rw [ht']
        exact List.take_append_of_le_length (Nat.le_of_lt (Nat.lt_of_not_le hlen))
      have e3 : c :: s' = createPat.take (c :: s').length := e1.symm.trans e2'
      rw [e3] at hmem
      have : '\x0a' ∈ createPat := List.take_subset _ _ hmem
      exact absurd this (by decide)

theorem splitFirst_term_at : ∀ (b : Str) {rest : Str}, occursIn termPat b = false →
    splitFirst termPat ((b ++ termPat) ++ rest) = some (b, rest) := by
  intro b
  induction b with
  | nil =>
    intro rest _
    rw [List.nil_append]
    have hsh : termPat ++ rest = termPat ++ rest := rfl
    rw [splitFirst_pos (by decide) (isPrefixOf_of_append _ _), List.drop_left]
  | cons c b' ih =>
    intro rest hocc
    simp only [occursIn, Bool.or_eq_false_iff] at hocc
    have hterm : termPat = [';', '\x0a'] := by decide
    have hsh : ((c :: b') ++ termPat) ++ rest = c :: ((b' ++ termPat) ++ rest) := by
      simp
    have hnp : termPat.isPrefixOf (c :: ((b' ++ termPat) ++ rest)) = false := by
      cases b' with
      | nil =>
        have hsh2 : (([] : Str) ++ termPat) ++ rest = ';' :: '\x0a' :: rest := by
          rw [List.nil_append, hterm]; rfl
        rw [hsh2, hterm]
        simp only [List.isPrefixOf_cons₂]
        have : ('\x0a' == ';') = false := by decide
        simp [this]
      | cons d b'' =>
        have h1 : termPat.isPrefixOf (c :: d :: b'') = false := hocc.1
        have hsh3 : ((d :: b'') ++ termPat) ++ rest = d :: ((b'' ++ termPat) ++ rest) := by
          simp
        rw [hsh3]
        rw [hterm] at h1 ⊢
        simp only [List.isPrefixOf_cons₂, List.isPrefixOf_nil_left, Bool.and_true] at h1 ⊢
        exact h1
    have step : splitFirst termPat (c :: ((b' ++ termPat) ++ rest))
        = (splitFirst termPat ((b' ++ termPat) ++ rest)).map (fun p => (c :: p.1, p.2)) :=
      splitFirst_neg hnp
    rw [hsh, step, ih hocc.2]
    rfl

theorem splitFirst_create_append : ∀ (o : Str) {r : Str},
    occursIn createPat o = false → endsNl o = true →
    splitFirst createPat (o ++ r)
      = (splitFirst createPat r).map (fun p => (o ++ p.1, p.2)) := by
  intro o
  induction o with
  | nil =>
    intro r _ _
    rw [List.nil_append]
    cases h : splitFirst createPat r with
    | none => simp
    | some p => simp
  | cons c o' ih =>
    intro r hocc hend
    have hocc1 : occursIn createPat o' = false := by
      simp only [occursIn, Bool.or_eq_false_iff] at hocc
      exact hocc.2
    have hend' : endsNl o' = true := by
      cases o' with
      | nil => rfl
      | cons d o'' => rw [← endsNl_cons_cons c d o'']; exact hend
    have hnp : createPat.isPrefixOf (c :: o' ++ r) = false :=
      createPat_no_straddle hocc hend
    have step : splitFirst createPat ((c :: o') ++ r)
        = (splitFirst createPat (o' ++ r)).map (fun p => (c :: p.1, p.2)) := by
      rw [List.cons_append]
      exact splitFirst_neg hnp
    rw [step, ih hocc1 hend']
    cases h : splitFirst createPat r with
    | none => simp
    | some p => simp

theorem findTableStmts_skip {o r : Str} (hocc : occursIn createPat o = false)
    (hend : endsNl o = true) :
    findTableStmts (o ++ r) = findTableStmts r := by
  rw [findTableStmts_eq (o ++ r), findTableStmts_eq r,
    splitFirst_create_append o hocc hend]
  cases h : splitFirst createPat r with
  | none => simp [h]
  | some p =>
    obtain ⟨p1, r1⟩ := p
    simp only [h, Option.map_some']

/-- C2 (counterexample): one non-table statement (it begins with `SELECT`)
followed by one well-formed table-definition statement, so N = 1 and M = 1;
but because the non-table statement contains the characters
`CREATE TABLE ` inside a string literal, the extraction step of
`process_schema` matches inside it and returns two statements instead of
exactly N = 1. -/
theorem c2_counterexample :
    createPat.isPrefixOf (("SELECT \x27CREATE TABLE x;\x0a\x27;\x0a").data) = false
    ∧ ("CREATE TABLE t (x int);\x0a").data = createPat ++ (("t (x int)").data) ++ termPat
    ∧ occursIn termPat (("t (x int)").data) = false
    ∧ (findTableStmts ((("SELECT \x27CREATE TABLE x;\x0a\x27;\x0a").data)
        ++ (("CREATE TABLE t (x int);\x0a").data))).length = 2 := by
  refine ⟨by decide, by decide, by decide, ?_⟩
  decide

/-- C2 (amended): for a raw schema text that is a concatenation of
well-formed table-definition statements (`CREATE TABLE ` ++ body ++ `;\n`
with no statement terminator inside the body) and non-table statements that
end with a newline and do not contain the table-definition keyword, the
extraction step of `process_schema` returns exactly the table-definition
statements, in order — so it yields exactly N statements and none of the
non-table statements appear in its output. -/
theorem c2_extraction_amended (segs : List RawSeg) (h : segs.all segOk = true) :
    findTableStmts (rawText segs) = segs.filterMap tableOf := by
  induction segs with
  | nil => rfl
  | cons seg segs ih =>
    simp only [List.all_cons, Bool.and_eq_true_iff] at h
    obtain ⟨hseg, hrest⟩ := h
    cases seg with
    | other o =>
      have h1 : occursIn createPat o = false := by
        simp only [segOk, Bool.and_eq_true_iff, Bool.not_eq_true'] at hseg
        exact hseg.1
      have h2 : endsNl o = true := by
        simp only [segOk, Bool.and_eq_true_iff] at hseg
        exact hseg.2
      have hraw : rawText (RawSeg.other o :: segs) = o ++ rawText segs := by
        simp [rawText, segText]
      rw [hraw, findTableStmts_skip h1 h2, ih hrest]
      simp [List.filterMap_cons, tableOf]
    | table b =>
      have hb : occursIn termPat b = false := by
        simp only [segOk, Bool.not_eq_true'] at hseg
        exact hseg
      have hraw : rawText (RawSeg.table b :: segs)
          = (createPat ++ b ++ termPat) ++ rawText segs := by
        simp [rawText, segText]
      have e1 : splitFirst createPat ((createPat ++ b ++ termPat) ++ rawText segs)
          = some ([], (b ++ termPat) ++ rawText segs) := by
        have hsh : (createPat ++ b ++ termPat) ++ rawText segs
            = createPat ++ ((b ++ termPat) ++ rawText segs) := by
          simp [List.append_assoc]
        rw [hsh, splitFirst_pos (by decide) (isPrefixOf_of_append _ _), List.drop_left]
      have e2 : splitFirst termPat ((b ++ termPat) ++ rawText segs)
          = some (b, rawText segs) := splitFirst_term_at b hb
      rw [hraw, findTableStmts_eq]
      simp only [e1, e2]
      rw [ih hrest]
      simp [List.filterMap_cons, tableOf]

/-- C2 (witness): the amended theorem applied to a two-segment schema text:
a `DROP TABLE` statement followed by a well-formed `CREATE TABLE` statement;
extraction returns exactly the one table statement. -/
theorem c2_extraction_amended_witness :
    findTableStmts (rawText [RawSeg.other (("DROP TABLE x;\x0a").data),
        RawSeg.table (("people (x int)").data)])
      = [RawSeg.other (("DROP TABLE x;\x0a").data),
          RawSeg.table (("people (x int)").data)].filterMap tableOf :=
  c2_extraction_amended _ (by decide)

/-- C1 (counterexample): the extraction step of `process_schema` extracts the
statement `CREATE TABLE t (\n    id bigint DEFAULT nextval('s'::regclass)\n);\n`
— whose single column takes its default from the sequence-advance function
`nextval` — yet the rewriting step leaves it unchanged (the substitution
pattern `bigint DEFAULT nextval.*,` requires a comma after the clause on the
same line, and a sequence-default column in final position has none), so the
rewritten statement still references `nextval`, contradicting the claim that
every such statement is rewritten to the shorthand auto-increment form. -/
theorem c1_counterexample :
    processedStmts (("CREATE TABLE t (\x0a    id bigint DEFAULT nextval(\x27s\x27::regclass)\x0a);\x0a").data)
      = [("CREATE TABLE t (\x0a    id bigint DEFAULT nextval(\x27s\x27::regclass)\x0a);\x0a").data]
    ∧ occursIn (("nextval").data)
        (reSubNextval (("CREATE TABLE t (\x0a    id bigint DEFAULT nextval(\x27s\x27::regclass)\x0a);\x0a").data))
      = true := by
  constructor
  · decide
  · decide

/-- C1 (amended): the rewriting step of `process_schema` replaces a
sequence-default column clause only when the literal `bigint DEFAULT nextval`
is followed by a comma on the same line; in that case the match — greedily
extended through the last comma before the next newline — is replaced by
`serial,`, and an extracted statement in which the substitution pattern
matches nowhere (in particular one whose sequence-default clause has no
following comma on its line, and any statement with no sequence-default
clause at all) is left character-for-character unchanged.  Stated for a
statement `pre ++ "bigint DEFAULT nextval" ++ mid ++ "," ++ post` whose
displayed occurrence is the leftmost one, whose `mid` stays on one line,
with no further comma on that line and no further match in `post`. -/
theorem c1_rewrite_amended (pre mid post s : Str)
    (hpre : ∀ i, i < pre.length →
      nextvalPat.isPrefixOf (List.drop i (pre ++ (nextvalPat ++ (mid ++ ',' :: post)))) = false)
    (hmid : mid.all (fun c => c != '\x0a') = true)
    (hline : (post.takeWhile (fun c => c != '\x0a')).all (fun c => c != ',') = true)
    (hpost : hasSubMatch post = false)
    (hs : hasSubMatch s = false) :
    reSubNextval (pre ++ (nextvalPat ++ (mid ++ ',' :: post))) = pre ++ (serialRepl ++ post)
    ∧ reSubNextval s = s := by
  constructor
  · rw [reSubNextval, pyResub_scan_pre pre 8 hpre, pyResub_at_match hmid hline (by decide)]
    rw [pyResub_no_match (8 - 1) hpost]
  · exact pyResub_no_match 8 hs

/-- C1 (witness): the amended theorem applied to the column clause
`id bigint DEFAULT nextval('events_id_seq'::regclass) NOT NULL,` of a
two-column statement, and — for the unchanged half — to the counterexample
statement itself, in which the pattern matches nowhere. -/
theorem c1_rewrite_amended_witness :
    reSubNextval ((("CREATE TABLE events (\x0a    id ").data)
        ++ (nextvalPat ++ ((("(\x27events_id_seq\x27::regclass) NOT NULL").data)
            ++ ',' :: (("\x0a    shop_id integer\x0a);\x0a").data))))
      = (("CREATE TABLE events (\x0a    id ").data)
        ++ (serialRepl ++ (("\x0a    shop_id integer\x0a);\x0a").data))
    ∧ reSubNextval (("CREATE TABLE t (\x0a    id bigint DEFAULT nextval(\x27s\x27::regclass)\x0a);\x0a").data)
      = ("CREATE TABLE t (\x0a    id bigint DEFAULT nextval(\x27s\x27::regclass)\x0a);\x0a").data :=
  c1_rewrite_amended _ _ _ _ (by decide) (by decide) (by decide) (by decide) (by decide)

/-! ### Joining, and the trailing newline of rewritten statements -/

theorem foldl_join (sep : Str) : ∀ (t : List Str) (A : Str),
    List.foldl (fun acc y => acc ++ sep ++ y) A t = A ++ joinTail sep t := by
  intro t
  induction t with
  | nil => intro A; simp [joinTail]
  | cons y t ih =>
    intro A
    rw [List.foldl_cons, ih]
    simp [joinTail, List.append_assoc]

theorem pyJoin_cons (sep x : Str) (t : List Str) :
    pyJoin sep (x :: t) = x ++ joinTail sep t := foldl_join sep t x

theorem joinTail_append (sep : Str) (a b : List Str) :
    joinTail sep (a ++ b) = joinTail sep a ++ joinTail sep b := by
  induction a with
  | nil => simp [joinTail]
  | cons y a ih => simp [joinTail, ih, List.append_assoc]

theorem pyJoin_append (sep : Str) {a b : List Str} (ha : a ≠ []) (hb : b ≠ []) :
    pyJoin sep (a ++ b) = pyJoin sep a ++ sep ++ pyJoin sep b := by
  cases a with
  | nil => exact absurd rfl ha
  | cons x a' =>
    cases b with
    | nil => exact absurd rfl hb
    | cons y b' =>
      rw [List.cons_append, pyJoin_cons, pyJoin_cons, pyJoin_cons, joinTail_append]
      simp [joinTail, List.append_assoc]

theorem takeWhile_length_le (p : Char → Bool) (l : Str) :
    (l.takeWhile p).length ≤ l.length := by
  conv_rhs => rw [← List.takeWhile_append_dropWhile p l]
  rw [List.length_append]
  omega

theorem lastCommaIdx_some : ∀ {l : Str} {j : Nat}, lastCommaIdx l = some j →
    j < l.length ∧ l[j]? = some ',' := by
  intro l
  induction l with
  | nil => intro j h; simp [lastCommaIdx] at h
  | cons c cs ih =>
    intro j h
    rw [lastCommaIdx] at h
    cases hm : lastCommaIdx cs with
    | some j' =>
      rw [hm] at h
      injection h with h'
      subst h'
      obtain ⟨hlt, hget⟩ := ih hm
      refine ⟨by simp; omega, ?_⟩
      simpa using hget
    | none =>
      rw [hm] at h
      by_cases hc : c = ','
      · rw [if_pos hc] at h
        injection h with h'
        subst h'
        exact ⟨by simp, by simp [hc]⟩
      · rw [if_neg hc] at h; simp at h

theorem pyResub_ne_nil {s : Str} (count : Nat) (h : s ≠ []) : pyResub count s ≠ [] := by
  cases s with
  | nil => exact absurd rfl h
  | cons c cs =>
    by_cases hc : count = 0
    · subst hc; rw [pyResub_zero]; simp
    · by_cases hp : nextvalPat.isPrefixOf (c :: cs) = true
      · cases hm : lastCommaIdx (((c :: cs).drop nextvalPat.length).takeWhile
            (fun x => x != '\x0a')) with
        | some j =>
          rw [pyResub_cons_match hp hm hc]
          intro hh
          have := (List.append_eq_nil.mp hh).1
          exact absurd this (by decide)
        | none => rw [pyResub_cons_nomatch count hp hm]; simp
      · have hp' : nextvalPat.isPrefixOf (c :: cs) = false := by
          cases hb : nextvalPat.isPrefixOf (c :: cs) with
          | false => rfl
          | true => exact absurd hb hp
        rw [pyResub_cons_neg count hp']; simp

theorem endsNl_append (a : Str) {b : Str} (hb : b ≠ []) : endsNl (a ++ b) = endsNl b := by
  simp only [endsNl, List.getLast?_append]
  cases hgl : b.getLast? with
  | none => rw [List.getLast?_eq_none_iff] at hgl; exact absurd hgl hb
  | some x => rfl

theorem pyResub_endsNl : ∀ (n count : Nat) (s : Str), s.length ≤ n →
    endsNl s = true → endsNl (pyResub count s) = true := by
  intro n
  induction n with
  | zero =>
    intro count s h1 h2
    have hs : s = [] := List.length_eq_zero.mp (Nat.le_zero.mp h1)
    subst hs
    exact h2
  | succ n ih =>
    intro count s h1 h2
    cases s with
    | nil => exact h2
    | cons c cs =>
      by_cases hc : count = 0
      · subst hc; rw [pyResub_zero]; exact h2
      · by_cases hp : nextvalPat.isPrefixOf (c :: cs) = true
        · cases hm : lastCommaIdx (((c :: cs).drop nextvalPat.length).takeWhile
              (fun x => x != '\x0a')) with
          | some j =>
            rw [pyResub_cons_match hp hm hc]
            obtain ⟨hjlt, hjget⟩ := lastCommaIdx_some hm
            have hjltR : j < ((c :: cs).drop nextvalPat.length).length :=
              Nat.lt_of_lt_of_le hjlt (takeWhile_length_le _ _)
            have hgetR : ((c :: cs).drop nextvalPat.length)[j]? = some ',' := by
              conv_lhs => rw [← List.takeWhile_append_dropWhile (fun x => x != '\x0a')
                ((c :: cs).drop nextvalPat.length)]
              rw [List.getElem?_append_left hjlt]
              exact hjget
            have hR : endsNl ((c :: cs).drop nextvalPat.length) = true := by
              have hRne : (c :: cs).drop nextvalPat.length ≠ [] := by
                intro hh
                rw [hh] at hjltR
                simp at hjltR
              have hdec : (c :: cs).take nextvalPat.length
                  ++ (c :: cs).drop nextvalPat.length = c :: cs :=
                List.take_append_drop _ _
              rw [← endsNl_append ((c :: cs).take nextvalPat.length) hRne, hdec]
              exact h2
            by_cases hX : ((c :: cs).drop nextvalPat.length).drop (j + 1) = []
            · exfalso
              have hlen : ((c :: cs).drop nextvalPat.length).length = j + 1 := by
                have h5 := List.length_drop (j + 1) ((c :: cs).drop nextvalPat.length)
                rw [hX] at h5
                simp only [List.length_nil] at h5
                omega
              have hlast : ((c :: cs).drop nextvalPat.length).getLast? = some ',' := by
                rw [List.getLast?_eq_getElem?, hlen]
                simpa using hgetR
              simp only [endsNl, hlast] at hR
              exact absurd hR (by decide)
            · have hdec2 : ((c :: cs).drop nextvalPat.length).take (j + 1)
                  ++ ((c :: cs).drop nextvalPat.length).drop (j + 1)
                  = (c :: cs).drop nextvalPat.length := List.take_append_drop _ _
              have hXnl : endsNl (((c :: cs).drop nextvalPat.length).drop (j + 1)) = true := by
                rw [← endsNl_append (((c :: cs).drop nextvalPat.length).take (j + 1)) hX,
                  hdec2]
                exact hR
              have hXlen : (((c :: cs).drop nextvalPat.length).drop (j + 1)).length ≤ n := by
                have hnp : 1 ≤ nextvalPat.length := by decide
                simp only [List.length_drop, List.length_cons] at *
                omega
              have hrec := ih (count - 1) _ hXlen hXnl
              have hrecne : pyResub (count - 1)
                  (((c :: cs).drop nextvalPat.length).drop (j + 1)) ≠ [] :=
                pyResub_ne_nil _ hX
              rw [endsNl_append serialRepl hrecne]
              exact hrec
          | none =>
            rw [pyResub_cons_nomatch count hp hm]
            cases cs with
            | nil => exact h2
            | cons d cs' =>
              have hne : pyResub count (d :: cs') ≠ [] := pyResub_ne_nil count (by simp)
              have hstep : endsNl (c :: pyResub count (d :: cs'))
                  = endsNl (pyResub count (d :: cs')) := by
                have := endsNl_append [c] hne
                simpa using this
              rw [hstep]
              apply ih count (d :: cs') (by simp at h1 ⊢; omega)
              rw [← endsNl_cons_cons c d cs']
              exact h2
        · have hp' : nextvalPat.isPrefixOf (c :: cs) = false := by
            cases hb : nextvalPat.isPrefixOf (c :: cs) with
            | false => rfl
            | true => exact absurd hb hp
          rw [pyResub_cons_neg count hp']
          cases cs with
          | nil => exact h2
          | cons d cs' =>
            have hne : pyResub count (d :: cs') ≠ [] := pyResub_ne_nil count (by simp)
            have hstep : endsNl (c :: pyResub count (d :: cs'))
                = endsNl (pyResub count (d :: cs')) := by
              have := endsNl_append [c] hne
              simpa using this
            rw [hstep]
            apply ih count (d :: cs') (by simp at h1 ⊢; omega)
            rw [← endsNl_cons_cons c d cs']
            exact h2

theorem findTableStmts_shape : ∀ (n : Nat) (x : Str), x.length ≤ n →
    ∀ s ∈ findTableStmts x, ∃ b, s = createPat ++ b ++ termPat := by
  intro n
  induction n with
  | zero =>
    intro x h1 s hs
    have hx : x = [] := List.length_eq_zero.mp (Nat.le_zero.mp h1)
    subst hx
    simp [findTableStmts, findAux] at hs
  | succ n ih =>
    intro x h1 s hs
    rw [findTableStmts_eq] at hs
    cases h3 : splitFirst createPat x with
    | none => simp only [h3] at hs; simp at hs
    | some p1 =>
      obtain ⟨p, r1⟩ := p1
      simp only [h3] at hs
      cases h4 : splitFirst termPat r1 with
      | none => simp only [h4] at hs; simp at hs
      | some p2 =>
        obtain ⟨b, r2⟩ := p2
        simp only [h4, List.mem_cons] at hs
        rcases hs with hs | hs
        · exact ⟨b, hs⟩
        · have e1 := splitFirst_length h3
          have e2 := splitFirst_length h4
          have hc : 1 ≤ createPat.length := by decide
          have ht : 1 ≤ termPat.length := by decide
          exact ih r2 (by omega) s hs

theorem processedStmts_endsNl (text : Str) : (processedStmts text).all endsNl = true := by
  rw [List.all_eq_true]
  intro x hx
  rw [processedStmts] at hx
  obtain ⟨s₀, hs₀, rfl⟩ := List.mem_map.mp hx
  obtain ⟨b, rfl⟩ := findTableStmts_shape text.length text (Nat.le_refl _) s₀ hs₀
  have h0 : endsNl (createPat ++ b ++ termPat) = true := by
    rw [endsNl_append (createPat ++ b) (by decide)]
    decide
  rw [reSubNextval]
  exact pyResub_endsNl (createPat ++ b ++ termPat).length 8 _ (Nat.le_refl _) h0

/-- C3: the processed schema ends with exactly the externally supplied list
of post-load statements (`alterations`), verbatim and in the order supplied,
regardless of the input schema content: the statement list built by
`process_schema` has `alterations` as a suffix, and the written text has the
newline-join of `alterations` as a suffix. -/
theorem c3_alterations_suffix (text : Str) (alterations : List Str) :
    alterations <:+ (processedStmts text ++ alterations)
    ∧ pyJoin (['\x0a']) alterations <:+ process_schema text alterations := by
  refine ⟨⟨processedStmts text, rfl⟩, ?_⟩
  rw [process_schema]
  cases hp : processedStmts text with
  | nil =>
    rw [List.nil_append]
  | cons x p' =>
    cases ha : alterations with
    | nil =>
      rw [pyJoin]
      exact List.nil_suffix
    | cons y a' =>
      rw [pyJoin_append (['\x0a']) (by simp) (by simp)]
      exact ⟨pyJoin (['\x0a']) (x :: p') ++ ['\x0a'], by simp [List.append_assoc]⟩

/-- C4 (counterexample): `process_schema` joins the statements with a single
newline character, not with blank lines: with no table statements and the two
post-load statements `ALTER TABLE a` and `ALTER TABLE b`, the processed
schema is `ALTER TABLE a\nALTER TABLE b` and contains no empty line (no two
consecutive newlines) between the consecutive statements. -/
theorem c4_counterexample :
    process_schema [] [("ALTER TABLE a").data, ("ALTER TABLE b").data]
      = ("ALTER TABLE a\x0aALTER TABLE b").data
    ∧ occursIn (['\x0a', '\x0a'])
        (process_schema [] [("ALTER TABLE a").data, ("ALTER TABLE b").data]) = false := by
  constructor
  · decide
  · decide

/-- C4 (amended): `process_schema` joins the rewritten statements and the
appended post-load statements with a single newline character (Python's
`"\n".join`); because every extracted statement ends with a newline — and
the rewriting step preserves that trailing newline, since a match never
includes a newline — consecutive extracted statements do appear separated by
an empty line, but consecutive post-load statements are separated by a
single newline only. -/
theorem c4_join_amended (text : Str) (alterations : List Str) :
    process_schema text alterations
      = pyJoin (['\x0a']) (processedStmts text ++ alterations)
    ∧ (processedStmts text).all endsNl = true :=
  ⟨rfl, processedStmts_endsNl text⟩

/-- C5 (counterexample): loading the full-copy (small) table data is done
through `run_silently` — the output-suppressing runner — not through the
output-inheriting runner, so a load error in this step is not visible to the
operator, contradicting the claim that every data-loading step uses the
non-silent runner variant. -/
theorem c5_counterexample :
    (load_data_for_small_tables (("local_prod").data)).map Prod.snd = [Runner.silent] := by
  rfl

/-- C5 (amended): of the two data-loading steps, only the sampled-table load
(`load_data_for_large_tables`) invokes its commands through the
output-inheriting runner (one visible invocation per configured large
table); the full-copy load (`load_data_for_small_tables`) uses the silent
runner.  Neither runner raises, so in both cases subsequent steps still
run. -/
theorem c5_runners_amended (localDb : Str) (largeTables : List (Str × Str)) :
    (load_data_for_large_tables localDb largeTables).map Prod.snd
      = largeTables.map (fun _ => Runner.visible)
    ∧ (load_data_for_small_tables localDb).map Prod.snd = [Runner.silent] := by
  constructor
  · rw [load_data_for_large_tables, List.map_map]
    rfl
  · rfl

/-- C6: the step list of `reload` — the whitespace-split of its literal step
string — is exactly the eight steps of the claim, once each, in
exactly the claimed order, and each name resolves to the module's step
function of the same name; the `for` loop runs them in list order with no
branching, so no step is skipped or reordered based on a prior step's
outcome. -/
theorem c6_reload_steps :
    pySplit reloadStepsText
      = [("download_schema").data, ("process_schema").data, ("drop_tables").data,
          ("create_tables").data, ("download_data_for_small_tables").data,
          ("download_sample_of_data_for_large_tables").data,
          ("load_data_for_small_tables").data, ("load_data_for_large_tables").data]
    ∧ (pySplit reloadStepsText).filterMap stepOf
      = [PipelineStep.download_schema, PipelineStep.process_schema,
          PipelineStep.drop_tables, PipelineStep.create_tables,
          PipelineStep.download_data_for_small_tables,
          PipelineStep.download_sample_of_data_for_large_tables,
          PipelineStep.load_data_for_small_tables,
          PipelineStep.load_data_for_large_tables] := by
  constructor
  · decide
  · decide

/-- C7: for a partition key set of exactly one value, the tuple interpolated
into the generated `IN` predicates is padded with the sentinel `-hack-`
before interpolation, so it has two elements and its rendering is never the
single-element tuple notation `('value',)` (for any value) that the target
engine would misparse. -/
theorem c7_single_key_padding (shopIds : List Str) (y : Str) (h : shopIds.length = 1) :
    (paddedShopIds shopIds).length = 2
    ∧ pyTupleRepr (paddedShopIds shopIds) ≠ '(' :: (pyStrRepr y ++ (",)").data) := by
  obtain ⟨x, rfl⟩ := List.length_eq_one.mp h
  refine ⟨rfl, ?_⟩
  intro hcontra
  have hL : (pyTupleRepr (paddedShopIds [x])).dropLast.getLast? = some '\x27' := by
    have e : pyTupleRepr (paddedShopIds [x])
        = (('(' :: (pyStrRepr (("-hack-").data) ++ (", ").data ++ ('\x27' :: x)))
            ++ ['\x27']) ++ [')'] := by
      show ('(' :: (pyJoin ((", ").data) [pyStrRepr (("-hack-").data), pyStrRepr x]
          ++ [')'])) = _
      rw [pyJoin_cons]
      simp [joinTail, pyStrRepr, List.append_assoc]
    rw [e, List.dropLast_concat, List.getLast?_concat]
  have hR : (('(' :: (pyStrRepr y ++ (",)").data)) : Str).dropLast.getLast? = some ',' := by
    have e : ('(' : Char) :: (pyStrRepr y ++ (",)").data)
        = (('(' :: pyStrRepr y) ++ [',']) ++ [')'] := by
      rw [show ((",)").data : Str) = [',', ')'] from by decide]
      simp [List.append_assoc]
    rw [e, List.dropLast_concat, List.getLast?_concat]
  rw [hcontra, hR] at hL
  simp at hL

/-- C7 (witness): the theorem applied to the one-element partition key set
`("shop_42",)`: the padded tuple has two elements and its rendering differs
from the single-element rendering of any value, in particular from
`('shop_42',)`. -/
theorem c7_single_key_padding_witness :
    (paddedShopIds [("shop_42").data]).length = 2
    ∧ pyTupleRepr (paddedShopIds [("shop_42").data])
        ≠ '(' :: (pyStrRepr (("shop_42").data) ++ (",)").data) :=
  c7_single_key_padding _ _ (by decide)

/-- C9: for every partition key set, the value list of the `IN` predicate of
both sampled-table download commands is the sentinel `-hack-` prepended to
the configured keys: both generated command templates interpolate exactly
`pyTupleRepr (paddedShopIds shopIds)`, the padded tuple's first element is
the sentinel, and the generated membership predicate accepts a row whose
partition key equals the sentinel. -/
theorem c9_sentinel_prepended (prodDb table sample : Str) (shopIds : List Str) :
    paddedShopIds shopIds = ("-hack-").data :: shopIds
    ∧ (∃ p q, cmdSampleLarge prodDb table sample shopIds
        = p ++ pyTupleRepr (paddedShopIds shopIds) ++ q)
    ∧ (∃ p q, cmdShopSpecific prodDb table sample shopIds
        = p ++ pyTupleRepr (paddedShopIds shopIds) ++ q)
    ∧ shop_filter shopIds (("-hack-").data) = true := by
  refine ⟨rfl, ?_, ?_, ?_⟩
  · refine ⟨("\x0a    psql ").data ++ prodDb ++ (" -c \"\\copy (\x0a        select * from ").data
      ++ table ++ (" \x0a        tablesample system (").data ++ sample
      ++ (")\x0a        where shop_id in ").data,
      ("\x0a        )\x0a        to \x27").data ++ filePathLarge table sample
      ++ ("\x27 with header csv\"\x0a    ").data, ?_⟩
    rw [cmdSampleLarge]
    simp [List.append_assoc]
  · refine ⟨("\x0a    psql ").data ++ prodDb ++ (" -c \"\\copy (\x0a        select * from ").data
      ++ table ++ (" \x0a        where shop_id in ").data,
      ("\x0a        )\x0a        to \x27").data ++ filePathLarge table sample
      ++ ("\x27 with header csv\"\x0a    ").data, ?_⟩
    rw [cmdShopSpecific]
    simp [List.append_assoc]
  · simp [shop_filter, paddedShopIds]

/-- C10: the fraction-based download command, the partition-scoped download
command (which applies no sampling but still names its output with the
sampling fraction), and the sampled-table load command all use the identical
intermediate file path `raw/{table}_{sample}.csv` built by `filePathLarge`
from the table name and the sampling fraction, so the load step reads
whichever file the most recent of the two downloads wrote. -/
theorem c10_shared_file_path (prodDb localDb table sample : Str) (shopIds : List Str) :
    (∃ p q, cmdSampleLarge prodDb table sample shopIds
      = p ++ filePathLarge table sample ++ q)
    ∧ (∃ p q, cmdShopSpecific prodDb table sample shopIds
      = p ++ filePathLarge table sample ++ q)
    ∧ (∃ p q, cmdLoadLarge localDb table sample
      = p ++ filePathLarge table sample ++ q) := by
  refine ⟨?_, ?_, ?_⟩
  · refine ⟨("\x0a    psql ").data ++ prodDb ++ (" -c \"\\copy (\x0a        select * from ").data
      ++ table ++ (" \x0a        tablesample system (").data ++ sample
      ++ (")\x0a        where shop_id in ").data ++ pyTupleRepr (paddedShopIds shopIds)
      ++ ("\x0a        )\x0a        to \x27").data,
      ("\x27 with header csv\"\x0a    ").data, ?_⟩
    rw [cmdSampleLarge]
  · refine ⟨("\x0a    psql ").data ++ prodDb ++ (" -c \"\\copy (\x0a        select * from ").data
      ++ table ++ (" \x0a        where shop_id in ").data ++ pyTupleRepr (paddedShopIds shopIds)
      ++ ("\x0a        )\x0a        to \x27").data,
      ("\x27 with header csv\"\x0a    ").data, ?_⟩
    rw [cmdShopSpecific]
  · refine ⟨("\x0a    psql ").data ++ localDb ++ (" -c \"\\copy ").data ++ table
      ++ (" from \x27").data, ("\x27 with csv header\"\x0a    ").data, ?_⟩
    rw [cmdLoadLarge]

/-! ### State lemmas for the partition refresh flow -/

theorem truncate_prodRows : ∀ (lt : List (Str × Str)) (s : PGState),
    (truncate_large_tables_effect lt s).prodRows = s.prodRows := by
  intro lt
  induction lt with
  | nil => intro s; rfl
  | cons p lt ih =>
    intro s
    rw [show truncate_large_tables_effect (p :: lt) s
        = truncate_large_tables_effect lt
            ({ s with localRows := Function.update s.localRows p.1 [] }) from rfl]
    rw [ih]

theorem truncate_fileRows : ∀ (lt : List (Str × Str)) (s : PGState),
    (truncate_large_tables_effect lt s).fileRows = s.fileRows := by
  intro lt
  induction lt with
  | nil => intro s; rfl
  | cons p lt ih =>
    intro s
    rw [show truncate_large_tables_effect (p :: lt) s
        = truncate_large_tables_effect lt
            ({ s with localRows := Function.update s.localRows p.1 [] }) from rfl]
    rw [ih]

theorem truncate_localRows : ∀ (lt : List (Str × Str)) (s : PGState) (t : Str),
    (truncate_large_tables_effect lt s).localRows t
      = if t ∈ lt.map Prod.fst then [] else s.localRows t := by
  intro lt
  induction lt with
  | nil => intro s t; simp [truncate_large_tables_effect, applyWrites]
  | cons p lt ih =>
    intro s t
    rw [show truncate_large_tables_effect (p :: lt) s
        = truncate_large_tables_effect lt
            ({ s with localRows := Function.update s.localRows p.1 [] }) from rfl]
    rw [ih]
    by_cases h1 : t ∈ lt.map Prod.fst
    · simp [h1]
    · by_cases h2 : t = p.1
      · simp [h1, h2, Function.update_apply, List.mem_cons]
      · simp [h1, h2, Function.update_apply, List.mem_cons]

theorem download_prodRows : ∀ (lt : List (Str × Str)) (ids : List Str) (s : PGState),
    (download_shop_specific_data_effect lt ids s).prodRows = s.prodRows := by
  intro lt
  induction lt with
  | nil => intro ids s; rfl
  | cons p lt ih =>
    intro ids s
    rw [show download_shop_specific_data_effect (p :: lt) ids s
        = download_shop_specific_data_effect lt ids
            ({ s with fileRows := (Function.update s.fileRows (filePathLarge p.1 p.2)
              (some ((s.prodRows p.1).filter (fun r => shop_filter ids r.shopId)))) }) from rfl]
    rw [ih]

theorem download_localRows : ∀ (lt : List (Str × Str)) (ids : List Str) (s : PGState),
    (download_shop_specific_data_effect lt ids s).localRows = s.localRows := by
  intro lt
  induction lt with
  | nil => intro ids s; rfl
  | cons p lt ih =>
    intro ids s
    rw [show download_shop_specific_data_effect (p :: lt) ids s
        = download_shop_specific_data_effect lt ids
            ({ s with fileRows := (Function.update s.fileRows (filePathLarge p.1 p.2)
              (some ((s.prodRows p.1).filter (fun r => shop_filter ids r.shopId)))) }) from rfl]
    rw [ih]

theorem download_fileRows : ∀ (lt : List (Str × Str)) (ids : List Str) (s : PGState),
    (download_shop_specific_data_effect lt ids s).fileRows
      = applyWrites s.fileRows (downloadWrites lt ids s.prodRows) := by
  intro lt
  induction lt with
  | nil => intro ids s; rfl
  | cons p lt ih =>
    intro ids s
    rw [show download_shop_specific_data_effect (p :: lt) ids s
        = download_shop_specific_data_effect lt ids
            ({ s with fileRows := (Function.update s.fileRows (filePathLarge p.1 p.2)
              (some ((s.prodRows p.1).filter (fun r => shop_filter ids r.shopId)))) }) from rfl]
    rw [ih]
    rfl

theorem load_prodRows : ∀ (lt : List (Str × Str)) (s : PGState),
    (load_data_for_large_tables_effect lt s).prodRows = s.prodRows := by
  intro lt
  induction lt with
  | nil => intro s; rfl
  | cons p lt ih =>
    intro s
    rw [show load_data_for_large_tables_effect (p :: lt) s
        = load_data_for_large_tables_effect lt
            ({ s with localRows := (Function.update s.localRows p.1
              (s.localRows p.1 ++ ((s.fileRows (filePathLarge p.1 p.2)).getD []))) }) from rfl]
    rw [ih]

theorem load_fileRows : ∀ (lt : List (Str × Str)) (s : PGState),
    (load_data_for_large_tables_effect lt s).fileRows = s.fileRows := by
  intro lt
  induction lt with
  | nil => intro s; rfl
  | cons p lt ih =>
    intro s
    rw [show load_data_for_large_tables_effect (p :: lt) s
        = load_data_for_large_tables_effect lt
            ({ s with localRows := (Function.update s.localRows p.1
              (s.localRows p.1 ++ ((s.fileRows (filePathLarge p.1 p.2)).getD []))) }) from rfl]
    rw [ih]

theorem load_localRows_not_mem : ∀ (lt : List (Str × Str)) (s : PGState) {t : Str},
    t ∉ lt.map Prod.fst →
    (load_data_for_large_tables_effect lt s).localRows t = s.localRows t := by
  intro lt
  induction lt with
  | nil => intro s t _; rfl
  | cons p lt ih =>
    intro s t h
    simp only [List.map_cons, List.mem_cons, not_or] at h
    rw [show load_data_for_large_tables_effect (p :: lt) s
        = load_data_for_large_tables_effect lt
            ({ s with localRows := (Function.update s.localRows p.1
              (s.localRows p.1 ++ ((s.fileRows (filePathLarge p.1 p.2)).getD []))) }) from rfl]
    rw [ih _ h.2]
    exact Function.update_noteq h.1 _ _

theorem applyWrites_get {β : Type} : ∀ (ws : List (Str × β)) (m : Str → β) (k : Str),
    applyWrites m ws k
      = match lastWrite ws k with
        | some v => v
        | none => m k := by
  intro ws
  induction ws with
  | nil => intro m k; rfl
  | cons w ws ih =>
    intro m k
    obtain ⟨k', v⟩ := w
    rw [show applyWrites m ((k', v) :: ws)
        = applyWrites (Function.update m k' v) ws from rfl]
    rw [ih]
    rw [lastWrite]
    cases hl : lastWrite ws k with
    | some w' => rfl
    | none =>
      by_cases hk : k' = k
      · rw [Function.update_apply]
        simp [hk]
      · have hk' : ¬(k = k') := fun hh => hk hh.symm
        rw [Function.update_apply]
        simp [hk, hk']

theorem applyWrites_idem {β : Type} (m : Str → β) (ws : List (Str × β)) :
    applyWrites (applyWrites m ws) ws = applyWrites m ws := by
  funext k
  rw [applyWrites_get ws (applyWrites m ws) k]
  cases hl : lastWrite ws k with
  | some v => rw [applyWrites_get ws m k, hl]
  | none => rw [applyWrites_get ws m k, hl]

theorem trunc_trunc (lt : List (Str × Str)) (s : PGState) :
    truncate_large_tables_effect lt (truncate_large_tables_effect lt s)
      = truncate_large_tables_effect lt s := by
  apply PGState.ext
  · funext t
    rw [truncate_localRows, truncate_localRows]
    by_cases h : t ∈ lt.map Prod.fst <;> simp [h]
  · simp only [truncate_fileRows]
  · simp only [truncate_prodRows]

theorem trunc_load (lt : List (Str × Str)) (s : PGState) :
    truncate_large_tables_effect lt (load_data_for_large_tables_effect lt s)
      = truncate_large_tables_effect lt s := by
  apply PGState.ext
  · funext t
    rw [truncate_localRows, truncate_localRows]
    by_cases h : t ∈ lt.map Prod.fst
    · simp [h]
    · simp [h, load_localRows_not_mem lt s h]
  · simp only [truncate_fileRows, load_fileRows]
  · simp only [truncate_prodRows, load_prodRows]

theorem trunc_download_comm (lt : List (Str × Str)) (ids : List Str) (s : PGState) :
    truncate_large_tables_effect lt (download_shop_specific_data_effect lt ids s)
      = download_shop_specific_data_effect lt ids (truncate_large_tables_effect lt s) := by
  apply PGState.ext
  · funext t
    simp only [truncate_localRows, download_localRows]
  · simp only [truncate_fileRows, download_fileRows, truncate_prodRows]
  · simp only [truncate_prodRows, download_prodRows]

theorem download_download (lt : List (Str × Str)) (ids : List Str) (s : PGState) :
    download_shop_specific_data_effect lt ids (download_shop_specific_data_effect lt ids s)
      = download_shop_specific_data_effect lt ids s := by
  apply PGState.ext
  · simp only [download_localRows]
  · rw [download_fileRows lt ids (download_shop_specific_data_effect lt ids s),
      download_prodRows lt ids s, download_fileRows lt ids s]
    exact applyWrites_idem _ _
  · simp only [download_prodRows]

/-- C8: the partition refresh flow `reload_for_shops` — truncate the local
sampled tables, download all rows of the configured partition key set, load
them — is idempotent on the modelled state (local tables, working files,
production tables): running it twice with the same configuration gives
exactly the state of running it once, because every run truncates each
sampled table before reloading it and the downloads depend only on the
production data.  In particular each sampled table ends with exactly one
copy of the downloaded partition rows. -/
theorem c8_refresh_idempotent (largeTables : List (Str × Str)) (shopIds : List Str)
    (s : PGState) :
    reload_for_shops_effect largeTables shopIds
        (reload_for_shops_effect largeTables shopIds s)
      = reload_for_shops_effect largeTables shopIds s := by
  simp only [reload_for_shops_effect]
  rw [trunc_load largeTables
    (download_shop_specific_data_effect largeTables shopIds
      (truncate_large_tables_effect largeTables s))]
  rw [trunc_download_comm largeTables shopIds (truncate_large_tables_effect largeTables s)]
  rw [trunc_trunc largeTables s]
  rw [download_download largeTables shopIds (truncate_large_tables_effect largeTables s)]
